import Mathlib

/-!
Verification of the placeholder engine of `templates.py`.

Template text is modelled as `List Char` (the character sequence of a
Python `str`).  `extract_placeholders` embeds the regex scan
`re.findall(r'\[([^\]]+)\]', template)` followed by an order-preserving
de-duplication; `replace_placeholders` embeds the fold of
`str.replace(f'[{placeholder}]', value)` over the mapping's entries in
insertion order; `get_template` embeds `TEMPLATES.get(name, "")`.

The scanners are written with an explicit skip counter so that every
definition is structurally recursive and can be evaluated by the kernel.
-/

namespace PosterGen

/-- The characters of a string literal, used to write concrete inputs. -/
def chars (s : String) : List Char := s.data

/-- The character class `[^\]]`: any character other than `]`. -/
def notRB (c : Char) : Bool := !(c == ']')

/-- One attempt of the regex `\[([^\]]+)\]` at a position just after a `[`:
the greedy run `[^\]]+` of non-`]` characters must be non-empty and must be
followed by a literal `]`.  Returns the captured name and the characters
after the closing `]`. -/
def matchAt (s : List Char) : Option (List Char × List Char) :=
  match s.dropWhile notRB with
  | [] => none
  | _ :: rest' =>
    if s.takeWhile notRB = [] then none else some (s.takeWhile notRB, rest')

/-- `re.findall` scanner: try the pattern at every position, left to right;
a successful match is consumed whole (the scan resumes after its `]`),
which the `Nat` argument implements as a count of characters still to skip. -/
def findGo : Nat → List Char → List (List Char)
  | _, [] => []
  | Nat.succ k, _ :: rest => findGo k rest
  | 0, c :: rest =>
    if c = '[' then
      match matchAt rest with
      | some (name, _) => name :: findGo (name.length + 1) rest
      | none => findGo 0 rest
    else findGo 0 rest

/-- All matches of `re.findall(r'\[([^\]]+)\]', s)`, with duplicates. -/
def findAll (s : List Char) : List (List Char) := findGo 0 s

/-- The `seen`-set loop of `extract_placeholders`: keep the first
occurrence of each name, drop later duplicates. -/
def dedupAux : List (List Char) → List (List Char) → List (List Char)
  | _, [] => []
  | seen, x :: xs => if x ∈ seen then dedupAux seen xs else x :: dedupAux (x :: seen) xs

/-- `extract_placeholders(template)`: the regex matches, de-duplicated in
first-occurrence order. -/
def extract_placeholders (template : List Char) : List (List Char) :=
  dedupAux [] (findAll template)

/-- Boolean test that `p` is an initial segment of `s`
(Python `s.startswith(p)`). -/
def leadsWith : List Char → List Char → Bool
  | [], _ => true
  | _ :: _, [] => false
  | a :: p, b :: s => a == b && leadsWith p s

/-- `str.replace(pat, repl)` scanner: at each position, if `pat` starts
here, emit `repl` and resume after the matched span (never rescanning
`repl`); otherwise emit the character and move on.  The `Nat` argument
counts matched characters still to drop.  (`pat` is always a non-empty
bracket token in this development.) -/
def replGo (pat repl : List Char) : Nat → List Char → List Char
  | _, [] => []
  | Nat.succ k, _ :: rest => replGo pat repl k rest
  | 0, c :: rest =>
    if leadsWith pat (c :: rest) then
      repl ++ replGo pat repl (pat.length - 1) rest
    else
      c :: replGo pat repl 0 rest

/-- Replace every (left-to-right, non-overlapping) occurrence of `pat`
by `repl`, as Python `s.replace(pat, repl)` does for non-empty `pat`. -/
def replaceAll (pat repl s : List Char) : List Char := replGo pat repl 0 s

/-- The literal token `f'[{placeholder}]'` built by `replace_placeholders`. -/
def token (name : List Char) : List Char := '[' :: (name ++ [']'])

/-- `replace_placeholders(template, values)`: fold `str.replace` of each
entry's bracket token over the entries in insertion order. -/
def replace_placeholders (template : List Char)
    (values : List (List Char × List Char)) : List Char :=
  values.foldl (fun result pv => replaceAll (token pv.1) pv.2 result) template

/-- The static template catalog `TEMPLATES` of `templates.py`,
as an insertion-ordered association list. -/
def TEMPLATES : List (String × String) := [
  ("Male Candidate - Regular Photo",
   "Create a 4:5 poster in 4K resolution for a Kerala Local Body Election Campaign, using the uploaded candidate photo.\n\nCandidate Instructions\n\nRecreate the same person from the uploaded reference photo with 100% accurate facial identity. Show the candidate standing, wearing a light blue shirt (full sleeves folded to half) and a Kerala mundu. Expression: pleasant, clean, well-groomed, matching the face in the reference. Main pose: candidate waving his hand.\n\nStyle: youthful, trendy, modern Kerala election design.\n\nPoster Layout & Design\n\nFollow Malayalam political-poster aesthetics.\n\nUse clear Malayalam typography.\n\nDo NOT show any labels.\n\nAll text must be in Malayalam.\n\nAdd the following Malayalam text exactly as specified order:\n\n1. Subheading (Regular font, lesser size than title):\n\n[Panchayath/Constituency Name] \n\n2. Title (Bold, with breathing space above and below):\n\n[Candidate Name]\n\n3. Floating Headline 2 (Condensed sans-serif, lesser size than title ):\n\nനമ്മുടെ [Party Name Initials] സ്ഥാനാർത്ഥിയെ [Symbol Name] അടയാളത്തിൽ വോട്ട് ചെയ്ത് വിജയിപ്പിക്കുക.\n\n4. side Floating tagline in stylish manner with calligraphic decorations, font size less than title, Italic, handwritten style:\n\n[Campaign Tagline]\n\n5. Bottom Footer Section\n\nLeft side, Display Party Name: [Full Party Name]\n\nRight side Display Symbol line, in outlined rounded corner box:\n\nനമ്മുടെ ചിഹ്നം place one [Symbol Description] icon next to this text only\n\nDesign Instructions:\nMalayalam text must be beautifully typeset. Maintain a clean, real-world election poster look with minimal background. Gentle shadows. Add delicate shapes, soft gradients, and a calm, balanced trendy composition."),
  ("Female Candidate - Regular Photo",
   "Create a 4:5 poster in 4K resolution for a Kerala Local Body Election Campaign, using the uploaded candidate photo.\n\nCandidate Instructions\n\nRecreate the same person from the uploaded reference photo with 100% accurate facial identity. Show the candidate standing and wearing a plain blue Indian saree typically used in election campaigning. The expression should be pleasant, confident, clean, and well-groomed, matching the look of the reference. The main pose should show the candidate waving her hand. Keep ornaments minimal—small earrings, a thin neck chain, one or two simple bangles, and a wristwatch.\n\nPoster Layout & Design\n\nFollow Malayalam political-poster aesthetics.\n\nUse clear Malayalam typography.\n\nDo NOT show any labels.\n\nAll text must be in Malayalam.\n\nAdd the following Malayalam text exactly as specified order:\n\n1. Subheading (Regular font, lesser size than title):\n\n[Panchayath/Constituency Name] ഗ്രാമ പഞ്ചായത്ത് ഒന്നാം വാർഡ് സ്ഥാനാർത്ഥി\n\n2. Title (Bold, with breathing space above and below):\n\n[Candidate Name]\n\n3. Floating Headline 2 (Condensed sans-serif, lesser size than title ):\n\nനമ്മുടെ [Party Name Initials] സ്ഥാനാർത്ഥിയെ [Symbol Name] അടയാളത്തിൽ വോട്ട് ചെയ്ത് വിജയിപ്പിക്കുക.\n\n4. side Floating tagline in stylish manner with calligraphic decorations, font size less than title, Italic, handwritten style:\n\n[Campaign Tagline]\n\n5. Bottom Footer Section\n\nLeft side, Display Party Name: [Full Party Name]\n\nRight side Display Symbol line, in outlined rounded corner box:\n\nനമ്മുടെ ചിഹ്നം place one [Symbol Description] icon next to this text only\n\nDesign Instructions:\nMalayalam text must be beautifully typeset. Maintain a clean, real-world election poster look with minimal background. Gentle shadows. Add delicate shapes, soft gradients, and a calm, balanced trendy composition."),
  ("Male Candidate - Caricature Style",
   "Create a 4:5 poster in 4K resolution for a Kerala Local Body Election Campaign, using the uploaded candidate photo.\n\nCandidate Instructions\n\nRecreate the same person from the uploaded reference photo with 100% accurate facial identity. Show the candidate standing, wearing a light blue shirt (full sleeves folded to half) and a Kerala mundu. Expression: pleasant, clean, well-groomed, matching the face in the reference. Main pose: candidate waving his hand.\n\nStyle: youthful, trendy, modern Kerala election design.\n\nPoster Layout & Design\n\nFollow Malayalam political-poster aesthetics.\n\nUse clear Malayalam typography.\n\nDo NOT show any labels.\n\nAll text must be in Malayalam.\n\nAdd the following Malayalam text exactly as specified order:\n\n1. Subheading (Regular font, lesser size than title):\n\n[Panchayath/Constituency Name] സ്ഥാനാർത്ഥി\n\n2. Title (Bold, with breathing space above and below):\n\n[Candidate Name]\n\n3. Floating Headline 2 (Condensed sans-serif, lesser size than title ):\n\nനമ്മുടെ [Party Name Initials] സ്ഥാനാർത്ഥിയെ [Symbol Name] അടയാളത്തിൽ വോട്ട് ചെയ്ത് വിജയിപ്പിക്കുക.\n\n4. side Floating tagline in stylish manner with calligraphic decorations, font size less than title, Italic, handwritten style:\n\n[Campaign Tagline]\n\n5. Bottom Footer Section\n\nLeft side, Display Party Name: [Full Party Name]\n\nRight side Display Symbol line, in outlined rounded corner box:\n\nനമ്മുടെ ചിഹ്നം place one [Symbol Description] icon next to this text only\n\nDesign Instructions\n\nCaricature-style election poster with a clean, polished, cartoonish illustration of the candidate. Use a minimal real-world election poster aesthetic with smooth lighting and gentle, natural shadows. All Malayalam text must be beautifully typeset, with modern political-poster typography. Use a calm, balanced layout with soft gradients, delicate abstract shapes, and thoughtfully used negative space. Maintain a youthful, trendy composition without clutter."),
  ("Female Candidate - Caricature Style",
   "Create a 4:5 poster in 4K resolution for a Kerala Local Body Election Campaign, using the uploaded candidate photo.\n\nCandidate Instructions\n\nRecreate the same person from the uploaded reference photo with 100% accurate facial identity. Show the candidate standing and wearing a plain blue Indian saree typically used in election campaigning. The expression should be pleasant, confident, clean, and well-groomed, matching the look of the reference. The main pose should show the candidate waving her hand. Keep ornaments minimal—small earrings, a thin neck chain, one or two simple bangles, and a wristwatch.\n\nPoster Layout & Design\n\nFollow Malayalam political-poster aesthetics.\n\nUse clear Malayalam typography.\n\nDo NOT show any labels.\n\nAll text must be in Malayalam.\n\nAdd the following Malayalam text exactly as specified order:\n\n1. Subheading (Regular font, lesser size than title):\n\n[Panchayath/Constituency Name] ഗ്രാമ പഞ്ചായത്ത് ഒന്നാം വാർഡ് സ്ഥാനാർത്ഥി\n\n2. Title (Bold, with breathing space above and below):\n\n[Candidate Name]\n\n3. Floating Headline 2 (Condensed sans-serif, lesser size than title ):\n\nനമ്മുടെ [Party Name Initials] സ്ഥാനാർത്ഥിയെ [Symbol Name] അടയാളത്തിൽ വോട്ട് ചെയ്ത് വിജയിപ്പിക്കുക.\n\n4. side Floating tagline in stylish manner with calligraphic decorations, font size less than title, Italic, handwritten style:\n\n[Campaign Tagline]\n\n5. Bottom Footer Section\n\nLeft side, Display Party Name: [Full Party Name]\n\nRight side Display Symbol line, in outlined rounded corner box:\n\nനമ്മുടെ ചിഹ്നം place one [Symbol Description] icon next to this text only\n\nDesign Instructions\n\nCaricature-style election poster with a clean, polished, cartoonish illustration of the candidate. Use a minimal real-world election poster aesthetic with smooth lighting and gentle, natural shadows. All Malayalam text must be beautifully typeset, with modern political-poster typography. Use a calm, balanced layout with soft gradients, delicate abstract shapes, and thoughtfully used negative space. Maintain a youthful, trendy composition without clutter.")
]

/-- `get_template(name)`: `TEMPLATES.get(name, "")` — the body for a
registered name, and the empty string for an unknown one. -/
def get_template (name : String) : String :=
  ((TEMPLATES.find? (fun p => p.1 == name)).map Prod.snd).getD ""

/-- `get_template_names()`: the registered names in insertion order. -/
def get_template_names : List String := TEMPLATES.map Prod.fst

/-! ### Basic facts about the scanners -/

theorem leadsWith_self_app (p t : List Char) : leadsWith p (p ++ t) = true := by
  induction p with
  | nil => rfl
  | cons a p ih => simp [leadsWith, ih]

theorem leadsWith_true_iff (p : List Char) :
    ∀ s, leadsWith p s = true ↔ ∃ t, s = p ++ t := by
  induction p with
  | nil => intro s; simp [leadsWith]
  | cons a p ih =>
    intro s
    cases s with
    | nil => simp [leadsWith]
    | cons b t =>
      simp only [leadsWith, Bool.and_eq_true, beq_iff_eq, ih]
      constructor
      · rintro ⟨rfl, u, rfl⟩; exact ⟨u, rfl⟩
      · rintro ⟨u, h⟩
        cases h
        exact ⟨rfl, u, rfl⟩

theorem notRB_true {c : Char} (h : c ≠ ']') : notRB c = true := by
  simp [notRB, h]

theorem notRB_rb : notRB ']' = false := by
  simp [notRB]

theorem takeW_app (a b : List Char) (h : ']' ∉ a) :
    (a ++ ']' :: b).takeWhile notRB = a := by
  induction a with
  | nil => simp [List.takeWhile_cons, notRB_rb]
  | cons c a ih =>
    have hc : c ≠ ']' := fun hc => h (hc ▸ List.mem_cons_self c a)
    have ha : ']' ∉ a := fun hm => h (List.mem_cons_of_mem c hm)
    simp only [List.cons_append, List.takeWhile_cons, notRB_true hc, if_true]
    rw [ih ha]

theorem dropW_app (a b : List Char) (h : ']' ∉ a) :
    (a ++ ']' :: b).dropWhile notRB = ']' :: b := by
  induction a with
  | nil => simp [List.dropWhile_cons, notRB_rb]
  | cons c a ih =>
    have hc : c ≠ ']' := fun hc => h (hc ▸ List.mem_cons_self c a)
    have ha : ']' ∉ a := fun hm => h (List.mem_cons_of_mem c hm)
    simp only [List.cons_append, List.dropWhile_cons, notRB_true hc, if_true]
    exact ih ha

theorem dropW_all (s : List Char) (h : ']' ∉ s) :
    s.dropWhile notRB = [] := by
  induction s with
  | nil => rfl
  | cons c s ih =>
    have hc : c ≠ ']' := fun hc => h (hc ▸ List.mem_cons_self c s)
    have hs : ']' ∉ s := fun hm => h (List.mem_cons_of_mem c hm)
    simp only [List.dropWhile_cons, notRB_true hc, if_true]
    exact ih hs

theorem matchAt_none_no_rb (s : List Char) (h : ']' ∉ s) : matchAt s = none := by
  unfold matchAt
  rw [dropW_all s h]

theorem matchAt_split (a b : List Char) (h : ']' ∉ a) :
    matchAt (a ++ ']' :: b) = if a = [] then none else some (a, b) := by
  unfold matchAt
  rw [dropW_app a b h, takeW_app a b h]

/-- Split a string at its first `]`, when it has one. -/
theorem rb_split (s : List Char) :
    ']' ∉ s ∨ ∃ a b, s = a ++ ']' :: b ∧ ']' ∉ a := by
  induction s with
  | nil => exact Or.inl (by simp)
  | cons c t ih =>
    by_cases hc : c = ']'
    · exact Or.inr ⟨[], t, by simp [hc], by simp⟩
    · rcases ih with h | ⟨a, b, rfl, ha⟩
      · refine Or.inl ?_
        intro hmem
        rcases List.mem_cons.mp hmem with h1 | h1
        · exact hc h1.symm
        · exact h h1
      · refine Or.inr ⟨c :: a, b, rfl, ?_⟩
        intro hmem
        rcases List.mem_cons.mp hmem with h1 | h1
        · exact hc h1.symm
        · exact ha h1

theorem findGo_skip (u w : List Char) : findGo u.length (u ++ w) = findGo 0 w := by
  induction u with
  | nil => rfl
  | cons a u ih => simpa [findGo] using ih

theorem replGo_skip (pat repl : List Char) (u w : List Char) :
    replGo pat repl u.length (u ++ w) = replGo pat repl 0 w := by
  induction u with
  | nil => rfl
  | cons a u ih => simpa [replGo] using ih

/-! ### Defining equations of `findAll`, read off the scanner -/

theorem findAll_nil : findAll [] = [] := rfl

theorem findAll_cons_other (c : Char) (s : List Char) (h : c ≠ '[') :
    findAll (c :: s) = findAll s := by
  simp [findAll, findGo, h]

theorem findAll_cons_none (s : List Char) (h : matchAt s = none) :
    findAll ('[' :: s) = findAll s := by
  simp [findAll, findGo, h]

theorem findAll_cons_match (a b : List Char) (ha : a ≠ []) (h : ']' ∉ a) :
    findAll ('[' :: (a ++ ']' :: b)) = a :: findAll b := by
  have hm : matchAt (a ++ ']' :: b) = some (a, b) := by
    simp [matchAt_split a b h, ha]
  have hskip : findGo (a.length + 1) (a ++ ']' :: b) = findGo 0 b := by
    have := findGo_skip (a ++ [']']) b
    simpa [List.append_assoc] using this
  simp [findAll, findGo, hm, hskip]

/-! ### Defining equations of `replaceAll` -/

theorem replaceAll_nil (pat repl : List Char) : replaceAll pat repl [] = [] := rfl

theorem replaceAll_cons_neg (pat repl : List Char) (c : Char) (s : List Char)
    (h : leadsWith pat (c :: s) = false) :
    replaceAll pat repl (c :: s) = c :: replaceAll pat repl s := by
  simp [replaceAll, replGo, h]

theorem replaceAll_app_match (p : Char) (pt repl w : List Char) :
    replaceAll (p :: pt) repl ((p :: pt) ++ w) = repl ++ replaceAll (p :: pt) repl w := by
  have hskip := replGo_skip (p :: pt) repl pt w
  have hl : leadsWith (p :: pt) (p :: (pt ++ w)) = true := by
    simpa using leadsWith_self_app (p :: pt) w
  have hlen : (p :: pt).length - 1 = pt.length := by simp
  simp [replaceAll, replGo, hl, hlen, hskip]

/-! ### Scanning across appends, and strings without brackets -/

theorem leadsWith_head_ne (a : Char) (p : List Char) (c : Char) (s : List Char)
    (h : a ≠ c) : leadsWith (a :: p) (c :: s) = false := by
  simp [leadsWith, h]

theorem findAll_app_left (u w : List Char) (h : '[' ∉ u) :
    findAll (u ++ w) = findAll w := by
  induction u with
  | nil => rfl
  | cons c u ih =>
    have hc : c ≠ '[' := fun hc => h (hc ▸ List.mem_cons_self c u)
    have hu : '[' ∉ u := fun hm => h (List.mem_cons_of_mem c hm)
    rw [List.cons_append, findAll_cons_other c _ hc, ih hu]

theorem findAll_no_lb (s : List Char) (h : '[' ∉ s) : findAll s = [] := by
  have := findAll_app_left s [] h
  simpa using this

theorem findAll_no_rb (s : List Char) (h : ']' ∉ s) : findAll s = [] := by
  induction s with
  | nil => rfl
  | cons c t ih =>
    have ht : ']' ∉ t := fun hm => h (List.mem_cons_of_mem c hm)
    by_cases hc : c = '['
    · subst hc
      rw [findAll_cons_none t (matchAt_none_no_rb t ht)]
      exact ih ht
    · rw [findAll_cons_other c t hc]
      exact ih ht

theorem matchAt_empty_name (b : List Char) : matchAt (']' :: b) = none := by
  have := matchAt_split [] b (by simp)
  simpa using this

theorem findAll_app_no_rb_aux :
    ∀ N t u, t.length ≤ N → ']' ∉ u → findAll (t ++ u) = findAll t := by
  intro N
  induction N with
  | zero =>
    intro t u ht hu
    have : t = [] := List.length_eq_zero.mp (Nat.le_zero.mp ht)
    subst this
    simpa using findAll_no_rb u hu
  | succ N ih =>
    intro t u ht hu
    cases t with
    | nil => simpa using findAll_no_rb u hu
    | cons c t' =>
      have ht' : t'.length ≤ N := by
        simp only [List.length_cons] at ht
        omega
      by_cases hc : c = '['
      · subst hc
        rcases rb_split t' with h1 | ⟨a, b, rfl, ha⟩
        · have h2 : ']' ∉ t' ++ u := by
            intro hm
            rcases List.mem_append.mp hm with hm | hm
            · exact h1 hm
            · exact hu hm
          rw [List.cons_append, findAll_cons_none _ (matchAt_none_no_rb _ h2),
            findAll_cons_none _ (matchAt_none_no_rb _ h1)]
          exact ih t' u ht' hu
        · have hb : b.length ≤ N := by
            simp only [List.length_cons, List.length_append] at ht
            omega
          by_cases hA : a = []
          · subst hA
            simp only [List.nil_append] at *
            rw [List.cons_append, List.cons_append,
              findAll_cons_none _ (matchAt_empty_name (b ++ u)),
              findAll_cons_none _ (matchAt_empty_name b),
              findAll_cons_other ']' _ (by decide),
              findAll_cons_other ']' _ (by decide)]
            exact ih b u hb hu
          · have hassoc : ((a ++ ']' :: b) ++ u) = a ++ ']' :: (b ++ u) := by
              simp [List.append_assoc]
            rw [List.cons_append, hassoc, findAll_cons_match a (b ++ u) hA ha,
              findAll_cons_match a b hA ha, ih b u hb hu]
      · rw [List.cons_append, findAll_cons_other c _ hc, findAll_cons_other c _ hc]
        exact ih t' u ht' hu

theorem findAll_app_no_rb (t u : List Char) (hu : ']' ∉ u) :
    findAll (t ++ u) = findAll t :=
  findAll_app_no_rb_aux t.length t u le_rfl hu

theorem replaceAll_app_left (pt repl u w : List Char) (h : '[' ∉ u) :
    replaceAll ('[' :: pt) repl (u ++ w) = u ++ replaceAll ('[' :: pt) repl w := by
  induction u with
  | nil => rfl
  | cons c u ih =>
    have hc : c ≠ '[' := fun hc => h (hc ▸ List.mem_cons_self c u)
    have hu : '[' ∉ u := fun hm => h (List.mem_cons_of_mem c hm)
    rw [List.cons_append,
      replaceAll_cons_neg _ repl c _ (leadsWith_head_ne '[' pt c _ (Ne.symm hc)), ih hu]
    rfl

theorem replaceAll_app_left_token (n repl u w : List Char) (h : '[' ∉ u) :
    replaceAll (token n) repl (u ++ w) = u ++ replaceAll (token n) repl w := by
  have := replaceAll_app_left (n ++ [']']) repl u w h
  simpa [token] using this

theorem replaceAll_absent (pat repl u : List Char) (c0 : Char)
    (hc : c0 ∈ pat) (hu : c0 ∉ u) : replaceAll pat repl u = u := by
  induction u with
  | nil => rfl
  | cons d u ih =>
    have hdu : c0 ∉ u := fun hm => hu (List.mem_cons_of_mem d hm)
    have hl : leadsWith pat (d :: u) = false := by
      rcases hb : leadsWith pat (d :: u) with _ | _
      · rfl
      · rcases (leadsWith_true_iff pat (d :: u)).mp hb with ⟨t, ht⟩
        rw [ht] at hu
        exact absurd (List.mem_append.mpr (Or.inl hc)) hu
    rw [replaceAll_cons_neg pat repl d u hl, ih hdu]

/-! ### Bracket tokens as prefixes -/

theorem rb_free_eq (n : List Char) :
    ∀ a t b : List Char, ']' ∉ n → ']' ∉ a →
      n ++ ']' :: t = a ++ ']' :: b → n = a ∧ t = b := by
  induction n with
  | nil =>
    intro a t b _ ha h
    cases a with
    | nil => simpa using h
    | cons c a' =>
      simp only [List.nil_append, List.cons_append, List.cons.injEq] at h
      exact absurd (h.1 ▸ List.mem_cons_self c a') ha
  | cons c n' ih =>
    intro a t b hn ha h
    cases a with
    | nil =>
      simp only [List.cons_append, List.nil_append, List.cons.injEq] at h
      exact absurd (h.1 ▸ List.mem_cons_self c n') hn
    | cons d a' =>
      simp only [List.cons_append, List.cons.injEq] at h
      have hn' : ']' ∉ n' := fun hm => hn (List.mem_cons_of_mem c hm)
      have ha' : ']' ∉ a' := fun hm => ha (List.mem_cons_of_mem d hm)
      obtain ⟨h1, h2⟩ := ih a' t b hn' ha' h.2
      exact ⟨by rw [h.1, h1], h2⟩

theorem token_app (n t : List Char) : token n ++ t = '[' :: (n ++ ']' :: t) := by
  simp [token, List.append_assoc]

theorem token_leads_eq (n a b : List Char) (hn : ']' ∉ n) (ha : ']' ∉ a)
    (hl : leadsWith (token n) ('[' :: (a ++ ']' :: b)) = true) : n = a := by
  rcases (leadsWith_true_iff (token n) _).mp hl with ⟨t, ht⟩
  rw [token_app] at ht
  simp only [List.cons.injEq, true_and] at ht
  exact (rb_free_eq n a t b hn ha ht.symm).1

theorem token_leads_empty (n b : List Char) (hn : ']' ∉ n) (hne : n ≠ [])
    (hl : leadsWith (token n) ('[' :: ']' :: b) = true) : False := by
  have : ('[' : Char) :: ']' :: b = '[' :: (([] : List Char) ++ ']' :: b) := by simp
  rw [this] at hl
  exact hne (token_leads_eq n [] b hn (by simp) hl)

/-! ### Infix construction helpers -/

theorem inf_cons {l t : List Char} (c : Char) (h : l <:+: t) : l <:+: c :: t := by
  rcases h with ⟨u, v, huv⟩
  exact ⟨c :: u, v, by rw [← huv]; rfl⟩

theorem inf_ext_left {l t : List Char} (w : List Char) (h : l <:+: t) :
    l <:+: w ++ t := by
  rcases h with ⟨u, v, huv⟩
  exact ⟨w ++ u, v, by rw [← huv]; simp [List.append_assoc]⟩

theorem token_inf_head (x b : List Char) : token x <:+: '[' :: (x ++ ']' :: b) :=
  ⟨[], b, by rw [List.nil_append, token_app]⟩

/-! ### Soundness of the extracted names -/

theorem findAll_sound_aux :
    ∀ N s, s.length ≤ N → ∀ x ∈ findAll s, x ≠ [] ∧ ']' ∉ x ∧ token x <:+: s := by
  intro N
  induction N with
  | zero =>
    intro s hs
    have : s = [] := List.length_eq_zero.mp (Nat.le_zero.mp hs)
    subst this
    simp [findAll_nil]
  | succ N ih =>
    intro s hs x hx
    cases s with
    | nil => simp [findAll_nil] at hx
    | cons c t =>
      have ht : t.length ≤ N := by
        simp only [List.length_cons] at hs
        omega
      by_cases hc : c = '['
      · subst hc
        rcases rb_split t with h1 | ⟨a, b, rfl, ha⟩
        · rw [findAll_cons_none t (matchAt_none_no_rb t h1)] at hx
          obtain ⟨h2, h3, h4⟩ := ih t ht x hx
          exact ⟨h2, h3, inf_cons '[' h4⟩
        · have hb : b.length ≤ N := by
            simp only [List.length_cons, List.length_append] at hs
            omega
          by_cases hA : a = []
          · subst hA
            simp only [List.nil_append] at hx ⊢
            rw [findAll_cons_none _ (matchAt_empty_name b),
              findAll_cons_other ']' _ (by decide)] at hx
            obtain ⟨h2, h3, h4⟩ := ih b hb x hx
            exact ⟨h2, h3, inf_cons '[' (inf_cons ']' h4)⟩
          · rw [findAll_cons_match a b hA ha] at hx
            rcases List.mem_cons.mp hx with rfl | hx'
            · exact ⟨hA, ha, token_inf_head x b⟩
            · obtain ⟨h2, h3, h4⟩ := ih b hb x hx'
              refine ⟨h2, h3, ?_⟩
              have h5 : token x <:+: ('[' :: (a ++ [']'])) ++ b := by
                refine inf_ext_left _ h4
              have h6 : ('[' :: (a ++ [']'])) ++ b = '[' :: (a ++ ']' :: b) := by
                simp [List.append_assoc]
              rwa [h6] at h5
      · rw [findAll_cons_other c t hc] at hx
        obtain ⟨h2, h3, h4⟩ := ih t ht x hx
        exact ⟨h2, h3, inf_cons c h4⟩

theorem findAll_sound (s : List Char) :
    ∀ x ∈ findAll s, x ≠ [] ∧ ']' ∉ x ∧ token x <:+: s :=
  findAll_sound_aux s.length s le_rfl

/-! ### The de-duplication pass -/

theorem mem_dedupAux (l : List (List Char)) :
    ∀ seen x, x ∈ dedupAux seen l ↔ x ∈ l ∧ x ∉ seen := by
  induction l with
  | nil => intro seen x; simp [dedupAux]
  | cons y l ih =>
    intro seen x
    by_cases hy : y ∈ seen
    · rw [show dedupAux seen (y :: l) = dedupAux seen l from by simp [dedupAux, hy], ih]
      constructor
      · rintro ⟨h1, h2⟩; exact ⟨List.mem_cons_of_mem y h1, h2⟩
      · rintro ⟨h1, h2⟩
        rcases List.mem_cons.mp h1 with rfl | h1
        · exact absurd hy h2
        · exact ⟨h1, h2⟩
    · rw [show dedupAux seen (y :: l) = y :: dedupAux (y :: seen) l from by
        simp [dedupAux, hy]]
      by_cases hxy : x = y
      · subst hxy
        simp [List.mem_cons_self, hy]
      · constructor
        · intro h1
          rcases List.mem_cons.mp h1 with rfl | h1
          · exact absurd rfl hxy
          · obtain ⟨h2, h3⟩ := (ih (y :: seen) x).mp h1
            exact ⟨List.mem_cons_of_mem y h2, fun hm => h3 (List.mem_cons_of_mem y hm)⟩
        · rintro ⟨h1, h2⟩
          rcases List.mem_cons.mp h1 with rfl | h1
          · exact absurd rfl hxy
          · refine List.mem_cons_of_mem y ((ih (y :: seen) x).mpr ⟨h1, ?_⟩)
            intro hm
            rcases List.mem_cons.mp hm with h3 | h3
            · exact hxy h3
            · exact h2 h3

theorem dedupAux_nodup (l : List (List Char)) :
    ∀ seen, (dedupAux seen l).Nodup ∧ ∀ x ∈ dedupAux seen l, x ∉ seen := by
  induction l with
  | nil => intro seen; simp [dedupAux]
  | cons y l ih =>
    intro seen
    by_cases hy : y ∈ seen
    · rw [show dedupAux seen (y :: l) = dedupAux seen l from by simp [dedupAux, hy]]
      exact ih seen
    · rw [show dedupAux seen (y :: l) = y :: dedupAux (y :: seen) l from by
        simp [dedupAux, hy]]
      obtain ⟨hnd, hns⟩ := ih (y :: seen)
      refine ⟨List.nodup_cons.mpr ⟨fun hm => ?_, hnd⟩, ?_⟩
      · exact hns y hm (List.mem_cons_self y seen)
      · intro x hx
        rcases List.mem_cons.mp hx with rfl | hx'
        · exact hy
        · exact fun hm => hns x hx' (List.mem_cons_of_mem y hm)

theorem dedupAux_sublist (l : List (List Char)) :
    ∀ seen, List.Sublist (dedupAux seen l) l := by
  induction l with
  | nil => intro seen; simp [dedupAux]
  | cons y l ih =>
    intro seen
    by_cases hy : y ∈ seen
    · rw [show dedupAux seen (y :: l) = dedupAux seen l from by simp [dedupAux, hy]]
      exact (ih seen).cons y
    · rw [show dedupAux seen (y :: l) = y :: dedupAux (y :: seen) l from by
        simp [dedupAux, hy]]
      exact (ih (y :: seen)).cons₂ y

theorem dedupAux_first_occ :
    ∀ l1 : List (List Char), ∀ seen a l2, a ∉ l1 → a ∉ seen →
      ∃ m1 m2, dedupAux seen (l1 ++ a :: l2) = m1 ++ a :: m2 ∧ ∀ x ∈ m1, x ∈ l1 := by
  intro l1
  induction l1 with
  | nil =>
    intro seen a l2 _ hseen
    refine ⟨[], dedupAux (a :: seen) l2, ?_, by simp⟩
    simp [dedupAux, hseen]
  | cons y l1 ih =>
    intro seen a l2 ha hseen
    have hay : a ≠ y := fun h => ha (h ▸ List.mem_cons_self y l1)
    have ha' : a ∉ l1 := fun hm => ha (List.mem_cons_of_mem y hm)
    rw [List.cons_append]
    by_cases hy : y ∈ seen
    · rw [show dedupAux seen (y :: (l1 ++ a :: l2)) = dedupAux seen (l1 ++ a :: l2) from by
        simp [dedupAux, hy]]
      obtain ⟨m1, m2, h1, h2⟩ := ih seen a l2 ha' hseen
      exact ⟨m1, m2, h1, fun x hx => List.mem_cons_of_mem y (h2 x hx)⟩
    · rw [show dedupAux seen (y :: (l1 ++ a :: l2)) =
          y :: dedupAux (y :: seen) (l1 ++ a :: l2) from by simp [dedupAux, hy]]
      have hsa : a ∉ y :: seen := by
        intro hm
        rcases List.mem_cons.mp hm with h3 | h3
        · exact hay h3
        · exact hseen h3
      obtain ⟨m1, m2, h1, h2⟩ := ih (y :: seen) a l2 ha' hsa
      refine ⟨y :: m1, m2, by rw [h1]; rfl, ?_⟩
      intro x hx
      rcases List.mem_cons.mp hx with rfl | hx'
      · exact List.mem_cons_self x l1
      · exact List.mem_cons_of_mem y (h2 x hx')

theorem mem_extract_iff (t x : List Char) :
    x ∈ extract_placeholders t ↔ x ∈ findAll t := by
  rw [extract_placeholders, mem_dedupAux]
  simp

theorem extract_eq_nil_iff (t : List Char) :
    extract_placeholders t = [] ↔ findAll t = [] := by
  rw [List.eq_nil_iff_forall_not_mem, List.eq_nil_iff_forall_not_mem]
  constructor
  · intro h x hx
    exact h x ((mem_extract_iff t x).mpr hx)
  · intro h x hx
    exact h x ((mem_extract_iff t x).mp hx)

/-! ### The central lemma: how one replacement pass changes the match list -/

theorem rb_mem_token (n : List Char) : ']' ∈ token n := by
  simp [token]

theorem findAll_replaceAll_aux :
    ∀ N s, s.length ≤ N →
      ∀ n v : List Char, n ≠ [] → ']' ∉ n → '[' ∉ v → ']' ∉ v →
      (∀ x ∈ findAll s, '[' ∉ x) →
      findAll (replaceAll (token n) v s) = (findAll s).filter (fun x => x ≠ n) := by
  intro N
  induction N with
  | zero =>
    intro s hs n v _ _ _ _ _
    have : s = [] := List.length_eq_zero.mp (Nat.le_zero.mp hs)
    subst this
    rfl
  | succ N ih =>
    intro s hs n v hn hnr hv1 hv2 hfree
    cases s with
    | nil => rfl
    | cons c t =>
      have ht : t.length ≤ N := by
        simp only [List.length_cons] at hs
        omega
      by_cases hc : c = '['
      · subst hc
        rcases rb_split t with h1 | ⟨a, b, rfl, ha⟩
        · -- no `]` anywhere after the `[`: nothing matches, nothing is replaced
          have hsr : ']' ∉ '[' :: t := by
            intro hm
            rcases List.mem_cons.mp hm with h2 | h2
            · exact absurd h2.symm (by decide)
            · exact h1 h2
          rw [replaceAll_absent (token n) v _ ']' (rb_mem_token n) hsr,
            findAll_no_rb _ hsr]
          rfl
        · have hb : b.length ≤ N := by
            simp only [List.length_cons, List.length_append] at hs
            omega
          have hfree_b : ∀ x ∈ findAll b, '[' ∉ x := by
            intro x hx
            by_cases hA : a = []
            · subst hA
              refine hfree x ?_
              simp only [List.nil_append]
              rw [findAll_cons_none _ (matchAt_empty_name b),
                findAll_cons_other ']' _ (by decide)]
              exact hx
            · refine hfree x ?_
              rw [findAll_cons_match a b hA ha]
              exact List.mem_cons_of_mem a hx
          by_cases hA : a = []
          · subst hA
            simp only [List.nil_append] at *
            have hl1 : leadsWith (token n) ('[' :: ']' :: b) = false := by
              rcases hb1 : leadsWith (token n) ('[' :: ']' :: b) with _ | _
              · rfl
              · exact absurd (token_leads_empty n b hnr hn hb1) id
            have hl2 : leadsWith (token n) (']' :: b) = false :=
              leadsWith_head_ne '[' _ ']' b (by decide)
            rw [replaceAll_cons_neg _ v _ _ hl1, replaceAll_cons_neg _ v _ _ hl2,
              findAll_cons_none _ (matchAt_empty_name (replaceAll (token n) v b)),
              findAll_cons_other ']' _ (by decide),
              findAll_cons_none _ (matchAt_empty_name b),
              findAll_cons_other ']' _ (by decide)]
            exact ih b hb n v hn hnr hv1 hv2 hfree_b
          · have ha_lb : '[' ∉ a := by
              refine hfree a ?_
              rw [findAll_cons_match a b hA ha]
              exact List.mem_cons_self a _
            by_cases hna : n = a
            · -- the scanner's match site is exactly an occurrence of the token
              subst hna
              have hshape : ('[' : Char) :: (n ++ ']' :: b) = token n ++ b :=
                (token_app n b).symm
              rw [hshape]
              have hrepl : replaceAll (token n) v (token n ++ b) =
                  v ++ replaceAll (token n) v b := by
                have := replaceAll_app_match '[' (n ++ [']']) v b
                simpa [token] using this
              rw [hrepl, findAll_app_left v _ hv1,
                ih b hb n v hn hnr hv1 hv2 hfree_b, ← hshape,
                findAll_cons_match n b hA ha]
              rw [List.filter_cons_of_neg (by simp)]
            · have hl1 : leadsWith (token n) ('[' :: (a ++ ']' :: b)) = false := by
                rcases hb1 : leadsWith (token n) ('[' :: (a ++ ']' :: b)) with _ | _
                · rfl
                · exact absurd (token_leads_eq n a b hnr ha hb1) hna
              have hl2 : leadsWith (token n) (']' :: b) = false :=
                leadsWith_head_ne '[' _ ']' b (by decide)
              have hstep : replaceAll (token n) v ('[' :: (a ++ ']' :: b)) =
                  '[' :: (a ++ ']' :: replaceAll (token n) v b) := by
                rw [replaceAll_cons_neg _ v _ _ hl1]
                have h3 : a ++ ']' :: b = a ++ (']' :: b) := rfl
                rw [h3, replaceAll_app_left_token n v a (']' :: b) ha_lb,
                  replaceAll_cons_neg _ v _ _ hl2]
              rw [hstep, findAll_cons_match a _ hA ha, findAll_cons_match a b hA ha,
                ih b hb n v hn hnr hv1 hv2 hfree_b,
                List.filter_cons_of_pos (by simp [Ne.symm hna])]
      · have hl : leadsWith (token n) (c :: t) = false :=
          leadsWith_head_ne '[' _ c t (Ne.symm hc)
        have hfree_t : ∀ x ∈ findAll t, '[' ∉ x := by
          intro x hx
          exact hfree x (by rw [findAll_cons_other c t hc]; exact hx)
        rw [replaceAll_cons_neg _ v _ _ hl, findAll_cons_other c _ hc,
          findAll_cons_other c t hc]
        exact ih t ht n v hn hnr hv1 hv2 hfree_t

theorem findAll_replaceAll (s n v : List Char) (hn : n ≠ []) (hnr : ']' ∉ n)
    (hv1 : '[' ∉ v) (hv2 : ']' ∉ v) (hfree : ∀ x ∈ findAll s, '[' ∉ x) :
    findAll (replaceAll (token n) v s) = (findAll s).filter (fun x => x ≠ n) :=
  findAll_replaceAll_aux s.length s le_rfl n v hn hnr hv1 hv2 hfree

/-- A replacement pass for a name with no match in `s` leaves `s` unchanged
(whatever the value is), provided no matched name of `s` contains `[`. -/
theorem replaceAll_id_absent_aux :
    ∀ N s, s.length ≤ N →
      ∀ n v : List Char, n ≠ [] → ']' ∉ n →
      (∀ x ∈ findAll s, '[' ∉ x) → n ∉ findAll s →
      replaceAll (token n) v s = s := by
  intro N
  induction N with
  | zero =>
    intro s hs n v _ _ _ _
    have : s = [] := List.length_eq_zero.mp (Nat.le_zero.mp hs)
    subst this
    rfl
  | succ N ih =>
    intro s hs n v hn hnr hfree habs
    cases s with
    | nil => rfl
    | cons c t =>
      have ht : t.length ≤ N := by
        simp only [List.length_cons] at hs
        omega
      by_cases hc : c = '['
      · subst hc
        rcases rb_split t with h1 | ⟨a, b, rfl, ha⟩
        · have hsr : ']' ∉ '[' :: t := by
            intro hm
            rcases List.mem_cons.mp hm with h2 | h2
            · exact absurd h2.symm (by decide)
            · exact h1 h2
          exact replaceAll_absent (token n) v _ ']' (rb_mem_token n) hsr
        · have hb : b.length ≤ N := by
            simp only [List.length_cons, List.length_append] at hs
            omega
          by_cases hA : a = []
          · subst hA
            simp only [List.nil_append] at *
            have hfind : findAll ('[' :: ']' :: b) = findAll b := by
              rw [findAll_cons_none _ (matchAt_empty_name b),
                findAll_cons_other ']' _ (by decide)]
            have hl1 : leadsWith (token n) ('[' :: ']' :: b) = false := by
              rcases hb1 : leadsWith (token n) ('[' :: ']' :: b) with _ | _
              · rfl
              · exact absurd (token_leads_empty n b hnr hn hb1) id
            have hl2 : leadsWith (token n) (']' :: b) = false :=
              leadsWith_head_ne '[' _ ']' b (by decide)
            rw [replaceAll_cons_neg _ v _ _ hl1, replaceAll_cons_neg _ v _ _ hl2,
              ih b hb n v hn hnr (fun x hx => hfree x (hfind ▸ hx)) (hfind ▸ habs)]
          · have hfind : findAll ('[' :: (a ++ ']' :: b)) = a :: findAll b :=
              findAll_cons_match a b hA ha
            have ha_lb : '[' ∉ a := hfree a (hfind ▸ List.mem_cons_self a _)
            have hna : n ≠ a := by
              intro h2
              exact habs (hfind ▸ (h2 ▸ List.mem_cons_self a (findAll b)))
            have habs_b : n ∉ findAll b := by
              intro h2
              exact habs (hfind ▸ List.mem_cons_of_mem a h2)
            have hfree_b : ∀ x ∈ findAll b, '[' ∉ x := fun x hx =>
              hfree x (hfind ▸ List.mem_cons_of_mem a hx)
            have hl1 : leadsWith (token n) ('[' :: (a ++ ']' :: b)) = false := by
              rcases hb1 : leadsWith (token n) ('[' :: (a ++ ']' :: b)) with _ | _
              · rfl
              · exact absurd (token_leads_eq n a b hnr ha hb1) hna
            have hl2 : leadsWith (token n) (']' :: b) = false :=
              leadsWith_head_ne '[' _ ']' b (by decide)
            rw [replaceAll_cons_neg _ v _ _ hl1]
            have h3 : a ++ ']' :: b = a ++ (']' :: b) := rfl
            rw [h3, replaceAll_app_left_token n v a (']' :: b) ha_lb,
              replaceAll_cons_neg _ v _ _ hl2,
              ih b hb n v hn hnr hfree_b habs_b]
      · have hfind : findAll (c :: t) = findAll t := findAll_cons_other c t hc
        have hl : leadsWith (token n) (c :: t) = false :=
          leadsWith_head_ne '[' _ c t (Ne.symm hc)
        rw [replaceAll_cons_neg _ v _ _ hl,
          ih t ht n v hn hnr (fun x hx => hfree x (hfind ▸ hx)) (hfind ▸ habs)]

theorem replaceAll_id_absent (s n v : List Char) (hn : n ≠ []) (hnr : ']' ∉ n)
    (hfree : ∀ x ∈ findAll s, '[' ∉ x) (habs : n ∉ findAll s) :
    replaceAll (token n) v s = s :=
  replaceAll_id_absent_aux s.length s le_rfl n v hn hnr hfree habs

/-! ### Folding a whole value mapping -/

theorem replace_cons (s : List Char) (e : List Char × List Char)
    (m : List (List Char × List Char)) :
    replace_placeholders s (e :: m) =
      replace_placeholders (replaceAll (token e.1) e.2 s) m := rfl

theorem findAll_replace_fold :
    ∀ m : List (List Char × List Char), ∀ s,
      (∀ x ∈ findAll s, '[' ∉ x) →
      (∀ p ∈ m, p.1 ≠ [] ∧ ']' ∉ p.1 ∧ '[' ∉ p.2 ∧ ']' ∉ p.2) →
      findAll (replace_placeholders s m) =
        (findAll s).filter (fun x => x ∉ m.map Prod.fst) := by
  intro m
  induction m with
  | nil =>
    intro s _ _
    rw [show replace_placeholders s [] = s from rfl]
    symm
    refine List.filter_eq_self.mpr ?_
    intro a _
    simp
  | cons e m ih =>
    intro s hfree hm
    obtain ⟨he1, he2, he3, he4⟩ := hm e (List.mem_cons_self e m)
    have h1 : findAll (replaceAll (token e.1) e.2 s) =
        (findAll s).filter (fun x => x ≠ e.1) :=
      findAll_replaceAll s e.1 e.2 he1 he2 he3 he4 hfree
    have hfree1 : ∀ x ∈ findAll (replaceAll (token e.1) e.2 s), '[' ∉ x := by
      intro x hx
      rw [h1] at hx
      exact hfree x (List.mem_of_mem_filter hx)
    rw [replace_cons, ih _ hfree1 (fun p hp => hm p (List.mem_cons_of_mem e hp)), h1,
      List.filter_filter]
    refine List.filter_congr ?_
    intro x _
    by_cases hx1 : x = e.1
    · subst hx1
      simp
    · by_cases hx2 : x ∈ m.map Prod.fst <;> simp [hx1, hx2]

/-- Entries whose names have no match in `t` make the whole fold a no-op. -/
theorem replace_noop_fold :
    ∀ m : List (List Char × List Char), ∀ t,
      (∀ x ∈ findAll t, '[' ∉ x) →
      (∀ p ∈ m, p.1 ≠ [] ∧ ']' ∉ p.1 ∧ p.1 ∉ findAll t) →
      replace_placeholders t m = t := by
  intro m
  induction m with
  | nil => intro t _ _; rfl
  | cons e m ih =>
    intro t hfree hm
    obtain ⟨he1, he2, he3⟩ := hm e (List.mem_cons_self e m)
    rw [replace_cons, replaceAll_id_absent t e.1 e.2 he1 he2 hfree he3]
    exact ih t hfree (fun p hp => hm p (List.mem_cons_of_mem e hp))

/-! ### Claim C1 -/

/-- C1 counterexample: the result of `replace_placeholders` is not independent
of the order of the mapping's entries.  With body `"[A]"` and entries
`A ↦ "[B]"`, `B ↦ "x"`, one order yields `"x"` (the inserted `"[B]"` was
rescanned by the later entry), the other `"[B]"`. -/
theorem C1_order_dependent :
    replace_placeholders (chars "[A]")
        [(chars "A", chars "[B]"), (chars "B", chars "x")] ≠
      replace_placeholders (chars "[A]")
        [(chars "B", chars "x"), (chars "A", chars "[B]")] := by decide

/-- C1 (amended): each replacement value is inserted verbatim, with no
escaping, and within a single entry's replacement pass the inserted value is
never rescanned — the pass resumes right after it, even when the value `v`
itself contains bracket syntax (including the entry's own token).  Later
entries of the mapping, however, do rescan earlier insertions, so the overall
result depends on the processing order of the entries in general. -/
theorem C1_verbatim_no_rescan_within_pass (n v s : List Char) :
    replace_placeholders (token n ++ s) [(n, v)] =
      v ++ replace_placeholders s [(n, v)] := by
  show replaceAll (token n) v (token n ++ s) = v ++ replaceAll (token n) v s
  have := replaceAll_app_match '[' (n ++ [']']) v s
  simpa [token] using this

/-! ### Claim C2 -/

/-- C2: the scanner pairs a `[` with the first `]` after it and takes the
enclosed text verbatim as the name, consuming the match and continuing after
it (first conjunct); an input with no closing `]` — or no `[` at all — yields
the empty sequence (second and third conjuncts); and an unmatched trailing
`[` with no later `]` contributes no placeholder and raises no error
(fourth conjunct). -/
theorem C2_scan_pairs_first_rb (t u a b : List Char)
    (ha1 : a ≠ []) (ha2 : ']' ∉ a) (hu : ']' ∉ u) :
    findAll ('[' :: (a ++ ']' :: b)) = a :: findAll b
    ∧ extract_placeholders u = []
    ∧ (∀ w : List Char, '[' ∉ w → extract_placeholders w = [])
    ∧ extract_placeholders (t ++ '[' :: u) = extract_placeholders t := by
  refine ⟨findAll_cons_match a b ha1 ha2, ?_, ?_, ?_⟩
  · rw [extract_eq_nil_iff]
    exact findAll_no_rb u hu
  · intro w hw
    rw [extract_eq_nil_iff]
    exact findAll_no_lb w hw
  · have h2 : ']' ∉ '[' :: u := by
      intro hm
      rcases List.mem_cons.mp hm with h | h
      · exact absurd h.symm (by decide)
      · exact hu h
    unfold extract_placeholders
    rw [findAll_app_no_rb t _ h2]

/-- Witness for C2 at a concrete body with a dangling `[`. -/
theorem C2_witness :
    extract_placeholders (chars "dangling") = []
    ∧ extract_placeholders (chars "Hello [Name]! " ++ '[' :: chars "dangling") =
        extract_placeholders (chars "Hello [Name]! ") := by
  have h := C2_scan_pairs_first_rb (chars "Hello [Name]! ") (chars "dangling")
    (chars "N") [] (by decide) (by decide) (by decide)
  exact ⟨h.2.1, h.2.2.2⟩

/-! ### Claim C3 -/

/-- C3: the extracted sequence is duplicate-free, contains exactly the
matched names, is a subsequence of the match list (order preserved), and each
name sits at the position of its first occurrence: whatever precedes a name's
first match precedes it in the output, and nothing else does.  On the spec's
example body the result is `["Name", "Place"]`. -/
theorem C3_unique_first_occurrence :
    (∀ t : List Char, (extract_placeholders t).Nodup
      ∧ (∀ a, a ∈ extract_placeholders t ↔ a ∈ findAll t)
      ∧ List.Sublist (extract_placeholders t) (findAll t)
      ∧ (∀ a l1 l2, findAll t = l1 ++ a :: l2 → a ∉ l1 →
          ∃ m1 m2, extract_placeholders t = m1 ++ a :: m2 ∧ ∀ x ∈ m1, x ∈ l1))
    ∧ extract_placeholders
        (chars "Hello [Name], welcome to [Place]. [Name] again.") =
        [chars "Name", chars "Place"] := by
  constructor
  · intro t
    refine ⟨(dedupAux_nodup _ []).1, mem_extract_iff t, dedupAux_sublist _ [], ?_⟩
    intro a l1 l2 hl hnl1
    have h := dedupAux_first_occ l1 [] a l2 hnl1 (by simp)
    unfold extract_placeholders
    rw [hl]
    exact h
  · decide

/-- Witness for C3: in `"[a][b][a]"` the name `a` first occurs before `b`,
and the output keeps it there. -/
theorem C3_witness :
    ∃ m1 m2, extract_placeholders (chars "[a][b][a]") = m1 ++ chars "a" :: m2
      ∧ ∀ x ∈ m1, x ∈ ([] : List (List Char)) :=
  (C3_unique_first_occurrence.1 (chars "[a][b][a]")).2.2.2 (chars "a") []
    [chars "b", chars "a"] (by decide) (by decide)

/-! ### Claim C4 -/

/-- C4 counterexample: body `"[A][[A]]"` extracts exactly `["A", "[A"]`; the
complete mapping `A ↦ "x"`, `[A ↦ "y"` has non-empty distinct values without
bracket syntax, yet the substituted output still extracts `["x"]` — replacing
`[A]` inside `[[A]]` left the outer brackets around the inserted `x`. -/
theorem C4_leftover_counterexample :
    extract_placeholders (chars "[A][[A]]") = [chars "A", chars "[A"]
    ∧ extract_placeholders (replace_placeholders (chars "[A][[A]]")
        [(chars "A", chars "x"), (chars "[A", chars "y")]) = [chars "x"] := by decide

/-- C4 (amended): for every body none of whose extracted names contains `[`
(no nested bracket), and every complete value mapping — exactly one entry per
extracted name, with non-empty distinct values none of which contains bracket
syntax — the substituted output extracts no placeholder at all. -/
theorem C4_complete_replace_no_leftover (s : List Char)
    (m : List (List Char × List Char))
    (hclean : ∀ x ∈ extract_placeholders s, '[' ∉ x)
    (hcover : ∀ x ∈ extract_placeholders s, x ∈ m.map Prod.fst)
    (hkeys : ∀ p ∈ m, p.1 ∈ extract_placeholders s)
    (hknodup : (m.map Prod.fst).Nodup)
    (hvne : ∀ p ∈ m, p.2 ≠ [])
    (hvfree : ∀ p ∈ m, '[' ∉ p.2 ∧ ']' ∉ p.2)
    (hvdist : (m.map Prod.snd).Nodup) :
    extract_placeholders (replace_placeholders s m) = [] := by
  have hfree : ∀ x ∈ findAll s, '[' ∉ x := fun x hx =>
    hclean x ((mem_extract_iff s x).mpr hx)
  have hm : ∀ p ∈ m, p.1 ≠ [] ∧ ']' ∉ p.1 ∧ '[' ∉ p.2 ∧ ']' ∉ p.2 := by
    intro p hp
    have h1 := (mem_extract_iff s p.1).mp (hkeys p hp)
    obtain ⟨h2, h3, _⟩ := findAll_sound s p.1 h1
    exact ⟨h2, h3, (hvfree p hp).1, (hvfree p hp).2⟩
  rw [extract_eq_nil_iff, findAll_replace_fold m s hfree hm]
  refine List.filter_eq_nil_iff.mpr ?_
  intro x hx
  have hxk : x ∈ m.map Prod.fst := hcover x ((mem_extract_iff s x).mpr hx)
  simp [hxk]

/-- Witness for C4 on the spec's example body with a complete clean mapping. -/
theorem C4_witness :
    extract_placeholders (replace_placeholders
      (chars "Hello [Name], welcome to [Place]. [Name] again.")
      [(chars "Name", chars "Anu"), (chars "Place", chars "Kochi")]) = [] :=
  C4_complete_replace_no_leftover _ _ (by decide) (by decide) (by decide)
    (by decide) (by decide) (by decide) (by decide)

/-! ### Claim C5 -/

/-- C5 counterexample: with body `"[A]"` and mapping `A ↦ "x[A]y"`, the first
substitution yields `"x[A]y"` and re-running the same mapping yields
`"xx[A]yy"` — re-running is not a no-op when a value reintroduces a token. -/
theorem C5_not_idempotent :
    replace_placeholders (replace_placeholders (chars "[A]")
        [(chars "A", chars "x[A]y")]) [(chars "A", chars "x[A]y")] ≠
      replace_placeholders (chars "[A]") [(chars "A", chars "x[A]y")] := by decide

/-- C5 (amended): re-running `replace_placeholders` with the same mapping is
a no-op, provided no extracted name of the body contains `[`, the mapping's
names are non-empty and `]`-free, and no replacement value contains bracket
syntax (then no `[name]` token of the mapping remains to match). -/
theorem C5_idempotent_clean (s : List Char) (m : List (List Char × List Char))
    (hclean : ∀ x ∈ extract_placeholders s, '[' ∉ x)
    (hkeys : ∀ p ∈ m, p.1 ≠ [] ∧ ']' ∉ p.1)
    (hvals : ∀ p ∈ m, '[' ∉ p.2 ∧ ']' ∉ p.2) :
    replace_placeholders (replace_placeholders s m) m =
      replace_placeholders s m := by
  have hfree : ∀ x ∈ findAll s, '[' ∉ x := fun x hx =>
    hclean x ((mem_extract_iff s x).mpr hx)
  have hm : ∀ p ∈ m, p.1 ≠ [] ∧ ']' ∉ p.1 ∧ '[' ∉ p.2 ∧ ']' ∉ p.2 :=
    fun p hp => ⟨(hkeys p hp).1, (hkeys p hp).2, (hvals p hp).1, (hvals p hp).2⟩
  have h1 := findAll_replace_fold m s hfree hm
  apply replace_noop_fold
  · intro x hx
    rw [h1] at hx
    exact hfree x (List.mem_of_mem_filter hx)
  · intro p hp
    refine ⟨(hkeys p hp).1, (hkeys p hp).2, ?_⟩
    intro hmem
    rw [h1] at hmem
    have h2 := List.of_mem_filter hmem
    simp only [decide_eq_true_eq] at h2
    exact h2 (List.mem_map_of_mem Prod.fst hp)

/-- Witness for C5 at a concrete body and mapping. -/
theorem C5_witness :
    replace_placeholders (replace_placeholders (chars "Hello [Name]")
        [(chars "Name", chars "Anu")]) [(chars "Name", chars "Anu")] =
      replace_placeholders (chars "Hello [Name]") [(chars "Name", chars "Anu")] :=
  C5_idempotent_clean _ _ (by decide) (by decide) (by decide)

/-! ### Claim C6 -/

/-- C6 counterexample: `B` is absent from the body `"[A]"`, yet appending the
entry `B ↦ "x"` to the mapping `A ↦ "[B]"` changes the result (`"x"` instead
of `"[B]"`), because the earlier entry's inserted value contains `[B]`. -/
theorem C6_extra_entry_not_noop :
    chars "B" ∉ extract_placeholders (chars "[A]")
    ∧ replace_placeholders (chars "[A]")
        ([(chars "A", chars "[B]")] ++ [(chars "B", chars "x")]) ≠
      replace_placeholders (chars "[A]") [(chars "A", chars "[B]")] := by decide

/-- C6 (amended): extending the mapping with an entry whose name is absent
from the body is a no-op — provided no extracted name of the body contains
`[`, the mapping's names are non-empty and `]`-free and its values contain no
bracket syntax, and the extra name is itself non-empty and `]`-free (its
value is arbitrary).  No error is possible: the operation is total. -/
theorem C6_unused_entry_noop (s : List Char) (m : List (List Char × List Char))
    (n v : List Char)
    (hclean : ∀ x ∈ extract_placeholders s, '[' ∉ x)
    (hm : ∀ p ∈ m, p.1 ≠ [] ∧ ']' ∉ p.1 ∧ '[' ∉ p.2 ∧ ']' ∉ p.2)
    (hn1 : n ≠ []) (hn2 : ']' ∉ n)
    (habs : n ∉ extract_placeholders s) :
    replace_placeholders s (m ++ [(n, v)]) = replace_placeholders s m := by
  have hfree : ∀ x ∈ findAll s, '[' ∉ x := fun x hx =>
    hclean x ((mem_extract_iff s x).mpr hx)
  have h1 := findAll_replace_fold m s hfree hm
  have happ : replace_placeholders s (m ++ [(n, v)]) =
      replaceAll (token n) v (replace_placeholders s m) := by
    unfold replace_placeholders
    rw [List.foldl_append]
    rfl
  rw [happ]
  apply replaceAll_id_absent _ n v hn1 hn2
  · intro x hx
    rw [h1] at hx
    exact hfree x (List.mem_of_mem_filter hx)
  · intro hmem
    rw [h1] at hmem
    exact habs ((mem_extract_iff s n).mpr (List.mem_of_mem_filter hmem))

/-- Witness for C6: an unused `City` entry appended to the mapping. -/
theorem C6_witness :
    replace_placeholders (chars "Hello [Name]")
        ([(chars "Name", chars "Anu")] ++ [(chars "City", chars "Kochi")]) =
      replace_placeholders (chars "Hello [Name]") [(chars "Name", chars "Anu")] :=
  C6_unused_entry_noop _ _ _ _ (by decide) (by decide) (by decide) (by decide)
    (by decide)

/-! ### Claim C7 -/

/-- C7 counterexample: in body `"[[B]]"` the extracted token is `[[B]` (name
`[B`), which has no entry in the mapping `B ↦ "x"`; yet the output is `"[x]"`,
in which the token `[[B]` does not occur — it was not left intact. -/
theorem C7_unfilled_token_destroyed :
    extract_placeholders (chars "[[B]]") = [chars "[B"]
    ∧ chars "[B" ∉ List.map Prod.fst [(chars "B", chars "x")]
    ∧ replace_placeholders (chars "[[B]]") [(chars "B", chars "x")] = chars "[x]"
    ∧ ¬ token (chars "[B") <:+:
        replace_placeholders (chars "[[B]]") [(chars "B", chars "x")] := by decide

/-- C7 (amended): provided no extracted name of the body contains `[` and the
mapping has non-empty `]`-free names and bracket-free values, every extracted
name with no entry in the mapping is still extracted from the output, and its
bracketed token occurs intact (brackets included) in the output. -/
theorem C7_unmatched_kept_intact (s : List Char)
    (m : List (List Char × List Char)) (name : List Char)
    (hclean : ∀ x ∈ extract_placeholders s, '[' ∉ x)
    (hm : ∀ p ∈ m, p.1 ≠ [] ∧ ']' ∉ p.1 ∧ '[' ∉ p.2 ∧ ']' ∉ p.2)
    (hmem : name ∈ extract_placeholders s)
    (hnot : name ∉ m.map Prod.fst) :
    name ∈ extract_placeholders (replace_placeholders s m)
    ∧ token name <:+: replace_placeholders s m := by
  have hfree : ∀ x ∈ findAll s, '[' ∉ x := fun x hx =>
    hclean x ((mem_extract_iff s x).mpr hx)
  have h1 := findAll_replace_fold m s hfree hm
  have h2 : name ∈ findAll (replace_placeholders s m) := by
    rw [h1]
    exact List.mem_filter.mpr ⟨(mem_extract_iff s name).mp hmem, by simp [hnot]⟩
  exact ⟨(mem_extract_iff _ name).mpr h2, (findAll_sound _ name h2).2.2⟩

/-- Witness for C7 on the spec's example: `[Place]` survives intact. -/
theorem C7_witness :
    chars "Place" ∈ extract_placeholders (replace_placeholders
      (chars "Hello [Name], welcome to [Place]. [Name] again.")
      [(chars "Name", chars "Anu")])
    ∧ token (chars "Place") <:+: replace_placeholders
      (chars "Hello [Name], welcome to [Place]. [Name] again.")
      [(chars "Name", chars "Anu")] :=
  C7_unmatched_kept_intact _ _ _ (by decide) (by decide) (by decide) (by decide)

/-! ### Claim C8 -/

/-- C8: the empty value mapping is an identity for `replace_placeholders`
on every body; the operation is total (it is a plain Lean function on
strings), so no error condition exists. -/
theorem C8_empty_mapping_identity (s : List Char) :
    replace_placeholders s [] = s := rfl

/-! ### Claim C9 -/

/-- C9: looking up any name not registered in the template catalog returns
the empty string rather than failing, and extracting placeholders from the
empty string yields the empty sequence. -/
theorem C9_unknown_template_empty (name : String)
    (h : name ∉ TEMPLATES.map Prod.fst) :
    get_template name = "" ∧ extract_placeholders (chars "") = [] := by
  constructor
  · unfold get_template
    have hf : TEMPLATES.find? (fun p => p.1 == name) = none := by
      refine List.find?_eq_none.mpr ?_
      intro p hp hq
      have h2 : p.1 = name := by simpa using hq
      exact h (h2 ▸ List.mem_map_of_mem Prod.fst hp)
    rw [hf]
    rfl
  · rfl

/-- Witness for C9 at the spec's example name. -/
theorem C9_witness :
    get_template "nonexistent-template" = ""
    ∧ extract_placeholders (chars "") = [] :=
  C9_unknown_template_empty "nonexistent-template" (by decide)

/-! ### Claim C10 -/

/-- C10: every name returned by `extract_placeholders` is non-empty and
contains no `]`, and its bracketed token `[` ++ name ++ `]` occurs as a
substring of the input; in particular `"[]"` yields no placeholder. -/
theorem C10_names_wellformed :
    (∀ s x : List Char, x ∈ extract_placeholders s →
      x ≠ [] ∧ ']' ∉ x ∧ token x <:+: s)
    ∧ extract_placeholders (chars "[]") = [] := by
  constructor
  · intro s x hx
    exact findAll_sound s x ((mem_extract_iff s x).mp hx)
  · rfl

/-- Witness for C10 at a concrete input. -/
theorem C10_witness :
    chars "a" ≠ [] ∧ ']' ∉ chars "a" ∧ token (chars "a") <:+: chars "x[a]y" :=
  C10_names_wellformed.1 (chars "x[a]y") (chars "a") (by decide)

end PosterGen
